import Mathlib

/-!
Shallow embedding of the span-resolution and reversible-tokenization core of
`app.py` (pii_removal_tool).

Texts are modelled as `List Char` (Python `str`, ASCII fragment: the regex
character classes `[A-Z]`, `[a-z]`, `\w`, `\s` and `str.lower` are modelled on
ASCII, which is what every concrete input in this development uses).
Python `dict`s (the mapping store, the per-call entity counters) are modelled
as insertion-ordered association lists with in-place update, exactly the
observable behaviour of CPython dicts.  Scores (`float` literals `0.85`, `1.0`
that are only ever stored and copied, never computed with) are modelled as
exact rationals.
-/

namespace PII

/-- A text is a list of characters (Python `str`). -/
abbrev Str := List Char

/-- `presidio_analyzer.RecognizerResult` as used by `app.py`: a half-open
character span `[start, stop)` tagged with an entity type and a score.
The source field `end` is called `stop` here (`end` is a Lean keyword). -/
structure Span where
  start : Nat
  stop : Nat
  entity_type : Str
  score : ℚ
deriving DecidableEq, Repr

/-- The entity type string `"PERSON"`. -/
def personType : Str := ['P', 'E', 'R', 'S', 'O', 'N']

/-- The score literal `0.85` from `post_process_lastname_firstname`
(the exact rational 17/20, in normal form so that it kernel-evaluates). -/
def score085 : ℚ := ⟨17, 20, by norm_num, by norm_num⟩

/-- The score literal `1.0` from `add_custom_names`. -/
def score10 : ℚ := ⟨1, 1, by norm_num, by norm_num⟩

theorem score085_eq : score085 = 0.85 := by
  rw [score085, Rat.mk'_eq_divInt]
  norm_num [Rat.divInt_eq_div]

theorem score10_eq : score10 = 1 := by
  rw [score10, Rat.mk'_eq_divInt]
  norm_num

/-! ### Python string primitives -/

/-- Python slice `t[s:e]` (for `0 ≤ s`, `0 ≤ e`; out-of-range indices clamp,
exactly as `List.take`/`List.drop` do). -/
def strSlice (t : Str) (s e : Nat) : Str := (t.drop s).take (e - s)

/-- Python `t[:s] + p + t[e:]` — splice `p` over positions `[s, e)`. -/
def splice (t : Str) (s e : Nat) (p : Str) : Str := t.take s ++ p ++ t.drop e

/-- ASCII model of Python `str.lower` on one character. -/
def lowerChar (c : Char) : Char := c.toLower

/-- ASCII model of the regex class `\w` (word character). -/
def isWordChar (c : Char) : Bool := c.isAlphanum || c = '_'

/-- The literal regex range `[A-Z]`. -/
def isUpperAZ (c : Char) : Bool := 'A' ≤ c && c ≤ 'Z'

/-- The literal regex range `[a-z]`. -/
def isLowerAZ (c : Char) : Bool := 'a' ≤ c && c ≤ 'z'

/-- ASCII model of the regex class `\s`. -/
def isSpaceChar (c : Char) : Bool :=
  c = ' ' || c = '\t' || c = '\n' || c = '\r' || c = '\x0b' || c = '\x0c'

/-- The character of `t` at index `n`, if in range. -/
def charAt (t : Str) (n : Nat) : Option Char := (t.drop n).head?

/-- Whether the character at index `n` exists and is a word character
(out of range counts as non-word, as at the ends of a Python string). -/
def wordAt (t : Str) (n : Nat) : Bool :=
  match charAt t n with
  | some c => isWordChar c
  | none => false

/-- The regex boundary `\b` at position `i` of `t`: exactly one of the
characters around position `i` is a word character. -/
def boundaryAt (t : Str) (i : Nat) : Bool :=
  match i with
  | 0 => wordAt t 0
  | j + 1 => wordAt t j != wordAt t (j + 1)

/-! ### Python `str.replace` (replace every occurrence, left to right) -/

/-- Scanner for `str.replace` with a non-empty pattern: structural on the
text; `skip > 0` means we are inside a match whose replacement was already
emitted, so `skip` more characters are consumed silently. -/
def replaceAux (pat rep : Str) : Str → Nat → Str
  | [], _ => []
  | _ :: rest, skip + 1 => replaceAux pat rep rest skip
  | c :: rest, 0 =>
    if pat.isPrefixOf (c :: rest) then rep ++ replaceAux pat rep rest (pat.length - 1)
    else c :: replaceAux pat rep rest 0

/-- Python `s.replace(pat, rep)`: every non-overlapping occurrence, scanning
left to right.  For the (never placeholder-generated) empty pattern, Python
inserts `rep` around every character: `"abc".replace("", r) = r+a+r+b+r+c+r`. -/
def pyReplace (s pat rep : Str) : Str :=
  if pat = [] then rep ++ s.flatMap (fun c => c :: rep)
  else replaceAux pat rep s 0

/-- `pat` occurs in `s` starting at index `k`. -/
def occursAt (pat s : Str) (k : Nat) : Bool := pat.isPrefixOf (s.drop k)

/-- All indices at which `pat` occurs in `s`. -/
def occPositions (pat s : Str) : List Nat :=
  (List.range (s.length + 1)).filter (fun k => occursAt pat s k)

/-! ### Python `sorted` (stable) by a `Nat` key, ascending and descending -/

/-- Insert `x` into a descending-sorted list, after all entries with a key
`≥ key x` (so ties keep their original order, as in Python's stable
`sorted(..., reverse=True)`). -/
def insertDescBy {α : Type} (key : α → Nat) (x : α) : List α → List α
  | [] => [x]
  | y :: l => if key y ≤ key x then x :: y :: l else y :: insertDescBy key x l

/-- Stable descending sort by a `Nat` key: the model of Python
`sorted(l, key=key, reverse=True)`. -/
def sortDescBy {α : Type} (key : α → Nat) : List α → List α
  | [] => []
  | x :: l => insertDescBy key x (sortDescBy key l)

/-- Insert `x` into an ascending-sorted list, before the first entry with a
key `≥ key x` (so `x`, which originates earlier in the input, stays before
later entries with an equal key: stability of Python `sorted`). -/
def insertAscBy {α : Type} (key : α → Nat) (x : α) : List α → List α
  | [] => [x]
  | y :: l => if key x ≤ key y then x :: y :: l else y :: insertAscBy key x l

/-- Stable ascending sort by a `Nat` key: the model of Python
`sorted(l, key=key)`. -/
def sortAscBy {α : Type} (key : α → Nat) : List α → List α
  | [] => []
  | x :: l => insertAscBy key x (sortAscBy key l)

/-! ### `re.finditer`

A fuel-indexed left-to-right scan: at each position try the anchored match;
on success emit it and resume at the match end (or one further for an empty
match, as `finditer` does); on failure advance one position.  Every step
advances the position by at least one and the scan stops beyond `len`, so
fuel `len + 1` (from start position `0`) is always enough. -/

def findIterAux {β : Type} (len : Nat) (matchAt : Nat → Option (β × Nat)) :
    Nat → Nat → List β
  | 0, _ => []
  | fuel + 1, i =>
    if i > len then []
    else
      match matchAt i with
      | some (b, e) => b :: findIterAux len matchAt fuel (max e (i + 1))
      | none => findIterAux len matchAt fuel (i + 1)

def findIter {β : Type} (len : Nat) (matchAt : Nat → Option (β × Nat)) : List β :=
  findIterAux len matchAt (len + 1) 0

/-! ### The two regexes of `app.py`

`post_process_lastname_firstname` scans with `r'\b([A-Z][a-z]+),\s+'`.
An anchored match at `i`: `\b`, one `[A-Z]`, a maximal non-empty `[a-z]+` run
(maximal, because the following `','` cannot match a lowercase letter, so the
greedy quantifier never backtracks), a `','`, then a maximal non-empty `\s+`
run.  Yields `(group1 start, group1 end, match end)`. -/

def lnMatchAt (t : Str) (i : Nat) : Option ((Nat × Nat × Nat) × Nat) :=
  if boundaryAt t i then
    match charAt t i with
    | some c =>
      if isUpperAZ c then
        let lows := ((t.drop (i + 1)).takeWhile isLowerAZ).length
        if lows = 0 then none
        else
          let j := i + 1 + lows
          match charAt t j with
          | some c2 =>
            if c2 = ',' then
              let ws := ((t.drop (j + 1)).takeWhile isSpaceChar).length
              if ws = 0 then none else some ((i, j, j + 1 + ws), j + 1 + ws)
            else none
          | none => none
      else none
    | none => none
  else none

/-- `re.finditer(r'\b([A-Z][a-z]+),\s+', text)`: list of
`(group1 start, group1 end, match end)` triples, left to right. -/
def lnFindIter (t : Str) : List (Nat × Nat × Nat) := findIter t.length (lnMatchAt t)

/-- Anchored match at `i` of `r'\b' + re.escape(name) + r'\b'` under
`re.IGNORECASE` (ASCII case folding): the slice of `t` at `[i, i + |name|)`
equals `name` up to case, with a `\b` boundary on each side.  Yields the
occurrence `(start, end)`. -/
def nameMatchAt (t name : Str) (i : Nat) : Option ((Nat × Nat) × Nat) :=
  if (strSlice t i (i + name.length)).map lowerChar = name.map lowerChar
      && boundaryAt t i && boundaryAt t (i + name.length) then
    some ((i, i + name.length), i + name.length)
  else none

/-- `re.finditer` for a custom name: all case-insensitive, word-boundary
delimited occurrences `(start, end)`, left to right, non-overlapping. -/
def nameFindIter (t name : Str) : List (Nat × Nat) :=
  findIter t.length (nameMatchAt t name)

/-! ### The SpanResolver stages (`app.py` lines 84–220) -/

/-- `post_process_lastname_firstname(text, results)` (lines 84–128).
`person_entities` is the dict of `(start, end)` keys of the `PERSON` results;
both uses of it below are existential, so the model keeps the plain list of
`PERSON` spans (the dict's deduplication of equal `(start, end)` keys cannot
change either existential). -/
def post_process_lastname_firstname (text : Str) (results : List Span) : List Span :=
  let persons := results.filter (fun r => r.entity_type = personType)
  let additional := (lnFindIter text).filterMap (fun m =>
    let i := m.1
    let j := m.2.1
    let comma_position := m.2.2
    let found_firstname := persons.any (fun p =>
      comma_position ≤ p.start && p.start ≤ comma_position + 2)
    if found_firstname then
      let overlap := persons.any (fun p =>
        (p.start ≤ i && i < p.stop) || (p.start < j && j ≤ p.stop))
      if overlap then none
      else some ⟨i, j, personType, score085⟩
    else none)
  results ++ additional

/-- `filter_ignore_list(text, results)` (lines 130–142), with the ignore list
passed explicitly (the source reloads it from storage on every call). -/
def filter_ignore_list (text : Str) (results : List Span) (ignore_list : List Str) :
    List Span :=
  if ignore_list = [] then results
  else results.filter (fun r => ¬ (strSlice text r.start r.stop ∈ ignore_list))

/-- `add_custom_names(text, results)` (lines 144–173), with the custom-name
list passed explicitly.  The overlap test runs against `results` — the input
list only, not against spans appended for earlier names of the same call. -/
def add_custom_names (text : Str) (results : List Span) (custom_names : List Str) :
    List Span :=
  if custom_names = [] then results
  else
    results ++ custom_names.flatMap (fun name =>
      (nameFindIter text name).filterMap (fun occ =>
        let overlap := results.any (fun r =>
          (r.start ≤ occ.1 && occ.1 < r.stop) || (r.start < occ.2 && occ.2 ≤ r.stop))
        if overlap then none
        else some ⟨occ.1, occ.2, personType, score10⟩))

/-- One streaming step of `merge_adjacent_persons`: `acc` is the `PERSON`
span currently being merged (`merged_start`/`merged_end`/the first span's
score), if any.  This is the skip-set loop of lines 186–212 rewritten as a
single left-to-right pass: the inner `j`-lookahead consumes exactly the
contiguous block it marks in `skip_indices`, and the outer loop resumes at
the first unskipped index, i.e. at the span that broke the lookahead. -/
def mergeAux : List Span → Option Span → List Span
  | [], none => []
  | [], some m => [m]
  | r :: rest, none =>
    if r.entity_type = personType then
      mergeAux rest (some ⟨r.start, r.stop, personType, r.score⟩)
    else r :: mergeAux rest none
  | r :: rest, some m =>
    if r.entity_type = personType ∧ (r.start : Int) - (m.stop : Int) ≤ 3 then
      mergeAux rest (some ⟨m.start, r.stop, personType, m.score⟩)
    else
      m :: (if r.entity_type = personType then
              mergeAux rest (some ⟨r.start, r.stop, personType, r.score⟩)
            else r :: mergeAux rest none)

/-- `merge_adjacent_persons(text, results)` (lines 175–214).  The `text`
argument is unused in the source too. -/
def merge_adjacent_persons (_text : Str) (results : List Span) : List Span :=
  if results = [] then results
  else mergeAux (sortAscBy (fun r => r.start) results) none

/-- `filter_by_entity_types(results, enabled_entities)` (lines 216–220).
A falsy `enabled_entities` (Python `None` or empty list) is the empty list. -/
def filter_by_entity_types (results : List Span) (enabled_entities : List Str) :
    List Span :=
  if enabled_entities = [] then results
  else results.filter (fun r => r.entity_type ∈ enabled_entities)

/-- The resolver pipeline exactly as run by `deidentify_text` (lines 241–245)
on the raw detector output. -/
def resolveSpans (text : Str) (raw : List Span) (enabled_entities : List Str)
    (ignore_list : List Str) (custom_names : List Str) : List Span :=
  merge_adjacent_persons text
    (post_process_lastname_firstname text
      (add_custom_names text
        (filter_ignore_list text (filter_by_entity_types raw enabled_entities)
          ignore_list)
        custom_names))

/-! ### MappingStore (`app.py` lines 46–82, 236–291) -/

/-- A CPython `dict` from strings: insertion-ordered association list with
unique keys. -/
abbrev StoreMap := List (Str × Str)

/-- `d[k] = v` on a CPython dict: update in place if `k` is present
(keeping its position), else append. -/
def dictInsert {β : Type} (m : List (Str × β)) (k : Str) (v : β) : List (Str × β) :=
  if m.any (fun kv => kv.1 = k) then
    m.map (fun kv => if kv.1 = k then (k, v) else kv)
  else m ++ [(k, v)]

/-- `d.get(k)` on a CPython dict (first — hence only — binding of `k`). -/
def dictLookup {β : Type} (m : List (Str × β)) (k : Str) : Option β :=
  match m.find? (fun kv => kv.1 = k) with
  | some kv => some kv.2
  | none => none

/-- `len([k for k in mappings.keys() if k.startswith(entity_type + "_")])`
(line 261). -/
def countTypeKeys (m : StoreMap) (entity_type : Str) : Nat :=
  (m.filter (fun kv => (entity_type ++ ['_']).isPrefixOf kv.1)).length

/-- Python `f"{n:03d}"`: decimal digits of `n`, left-padded with `'0'` to
width 3. -/
def pad3 (n : Nat) : Str := List.replicate (3 - (Nat.repr n).data.length) '0' ++ (Nat.repr n).data

/-- The placeholder `f"{entity_type}_{n:03d}"` (line 265). -/
def mkPlaceholder (entity_type : Str) (n : Nat) : Str := entity_type ++ '_' :: pad3 n

/-- The per-call counter dict `entity_counters`. -/
abbrev Counters := List (Str × Nat)

/-- The mapping/counter part of one iteration of the `deidentify_text` loop
(lines 255–268): initialize the counter for the span's type from the current
mapping if absent, bump it, build the placeholder, record
`mappings[placeholder] = text[start:end]`.  Returns the new state and the
placeholder.  (`text` is the original text: line 257 slices `text`, not the
working copy.) -/
def deidAlloc (text : Str) (mc : StoreMap × Counters) (r : Span) :
    (StoreMap × Counters) × Str :=
  let t := r.entity_type
  let base :=
    match dictLookup mc.2 t with
    | some c => c
    | none => countTypeKeys mc.1 t
  let c := base + 1
  let p := mkPlaceholder t c
  ((dictInsert mc.1 p (strSlice text r.start r.stop), dictInsert mc.2 t c), p)

/-- One full iteration of the `deidentify_text` loop: allocate, then splice
the placeholder over the span in the working text (line 271). -/
def deidentifyStep (text : Str) (st : StoreMap × Counters × Str) (r : Span) :
    StoreMap × Counters × Str :=
  let res := deidAlloc text (st.1, st.2.1) r
  (res.1.1, res.1.2, splice st.2.2 r.start r.stop res.2)

/-- `deidentify_text`'s transform part (lines 247–274), taking the resolved
span set and the loaded mapping store as inputs: sort spans by start,
descending (stable), run the loop starting from the original text, return
`(deidentified_text, len(results))` and the mapping that gets persisted. -/
def deidentifyTransform (text : Str) (spans : List Span) (store : StoreMap) :
    (Str × Nat) × StoreMap :=
  let sorted_results := sortDescBy (fun r => r.start) spans
  let st := sorted_results.foldl (deidentifyStep text) (store, ([] : Counters), text)
  ((st.2.2, spans.length), st.1)

/-- `deidentify_text(text, ...)` (lines 236–274) with the external detector's
raw output and the policy lists as explicit inputs: resolve, then transform. -/
def deidentify_text (text : Str) (raw : List Span) (enabled_entities : List Str)
    (ignore_list : List Str) (custom_names : List Str) (store : StoreMap) :
    (Str × Nat) × StoreMap :=
  deidentifyTransform text (resolveSpans text raw enabled_entities ignore_list custom_names)
    store

/-- `reidentify_text(text)` (lines 276–287) with the loaded mapping store as
an explicit input: sort the mapping items by placeholder length, descending
(stable), replace every occurrence of each placeholder by its original value,
return entity count `0`.  The store is returned unchanged: the source never
calls `save_mappings` here. -/
def reidentify_text (text : Str) (store : StoreMap) : (Str × Nat) × StoreMap :=
  let sorted_mappings := sortDescBy (fun kv => kv.1.length) store
  ((sorted_mappings.foldl (fun acc kv => pyReplace acc kv.1 kv.2) text, 0), store)

/-! ### The durable backing file of the mapping store (`load_json_file`) -/

/-- The observable states of the JSON file behind the mapping store. -/
inductive MappingFile where
  /-- `os.path.exists` is false. -/
  | absent : MappingFile
  /-- The file exists but reading it raises an `OSError`
  (which `except json.JSONDecodeError` does not catch). -/
  | unreadable : MappingFile
  /-- The file reads but its content is not valid JSON
  (`json.load` raises `json.JSONDecodeError`). -/
  | malformed : MappingFile
  /-- The file reads and parses as a JSON object: the stored mapping. -/
  | stored (m : StoreMap) : MappingFile
deriving DecidableEq

/-- `load_json_file(filepath, default)` (lines 46–57): absent file — default;
`json.JSONDecodeError` — caught, default; any other error while opening or
reading — propagates (`Except.error`); otherwise the parsed content. -/
def load_json_file (f : MappingFile) (default : StoreMap) : Except Unit StoreMap :=
  match f with
  | .absent => .ok default
  | .unreadable => .error ()
  | .malformed => .ok default
  | .stored m => .ok m

/-- `load_mappings()` (lines 68–70): `load_json_file(MAPPING_FILE, {})`. -/
def load_mappings (f : MappingFile) : Except Unit StoreMap := load_json_file f []

/-- Two spans intersect as half-open intervals. -/
def spansIntersect (a b : Span) : Prop := a.start < b.stop ∧ b.start < a.stop

/-! ### A second merge definition following the specification's words

For comparing `merge_adjacent_persons` against its specification sentence,
this definition follows the claim's words: walk the sorted list collecting
each maximal run of `PERSON` spans in which every successor starts at most 3
characters after the previous span's end, and collapse a run to a single
`PERSON` span covering `[first.start, last.end]` with the first span's
score. -/

/-- "Merged transitively into a single `PERSON` span covering
`[first.start, last.end]` with the first span's score": collapse the run
`first :: run`. -/
def collapseRun (first : Span) (run : List Span) : Span :=
  ⟨first.start, (run.getLastD first).stop, personType, first.score⟩

/-- Walk left to right; `acc = some (first, laterRunMembers)` is the run of
adjacent `PERSON` spans currently being collected. -/
def specMergeAux : List Span → Option (Span × List Span) → List Span
  | [], none => []
  | [], some fr => [collapseRun fr.1 fr.2]
  | r :: rest, none =>
    if r.entity_type = personType then specMergeAux rest (some (r, []))
    else r :: specMergeAux rest none
  | r :: rest, some fr =>
    if r.entity_type = personType ∧
        (r.start : Int) - ((fr.2.getLastD fr.1).stop : Int) ≤ 3 then
      specMergeAux rest (some (fr.1, fr.2 ++ [r]))
    else
      collapseRun fr.1 fr.2 ::
        (if r.entity_type = personType then specMergeAux rest (some (r, []))
         else r :: specMergeAux rest none)

/-- The adjacency-merge stage as worded in the specification. -/
def merge_adjacent_persons_claim (_text : Str) (results : List Span) : List Span :=
  if results = [] then results
  else specMergeAux (sortAscBy (fun r => r.start) results) none

/-! ### Decomposition machinery for the Deidentify/Reidentify round trip -/

/-- The spans of `l` are descending, pairwise disjoint and within `bound`:
`r.start ≤ r.stop ≤ bound` for the head and recursively within `r.start` for
the tail.  This is what `deidentify_text`'s descending splice loop needs:
each splice happens strictly before the region already processed. -/
def descOKb : Nat → List Span → Bool
  | _, [] => true
  | bound, r :: l => decide (r.start ≤ r.stop) && decide (r.stop ≤ bound) && descOKb r.start l

/-- The mapping/counter pair after the whole `deidentify_text` loop
(the loop's effect on `mappings`/`entity_counters`, which is independent of
the working text). -/
def deidMC (text : Str) (R : List Span) (mc : StoreMap × Counters) : StoreMap × Counters :=
  R.foldl (fun mc r => (deidAlloc text mc r).1) mc

/-- The placeholders generated by the `deidentify_text` loop for the span
list `R` (in processing order, i.e. by start descending). -/
def deidPhs (text : Str) : List Span → (StoreMap × Counters) → List Str
  | [], _ => []
  | r :: R, mc => (deidAlloc text mc r).2 :: deidPhs text R (deidAlloc text mc r).1

/-- Build the text obtained from `T` by writing `w` over the region of its
span for every `(span, w)` pair, pairs listed by span start descending: the
shape of `deidentify_text`'s output text. -/
def buildText (T : Str) : List (Span × Str) → Str
  | [] => T
  | (r, w) :: rest => buildText (T.take r.start) rest ++ w ++ T.drop r.stop

/-- Given `(span, placeholder, original)` triples, put the original into the
slots whose placeholder is in `done`, and the placeholder into the others. -/
def fillWith (done : List Str) (triples : List (Span × Str × Str)) : List (Span × Str) :=
  triples.map (fun tr => (tr.1, if tr.2.1 ∈ done then tr.2.2 else tr.2.1))

/-- The text state in the middle of `reidentify_text`'s replacement loop:
the slots whose placeholders were already processed hold their originals. -/
def hybridText (T : Str) (triples : List (Span × Str × Str)) (done : List Str) : Str :=
  buildText T (fillWith done triples)

/-- The span list in `deidentify_text`'s processing order (start descending). -/
def deidSorted (spans : List Span) : List Span := sortDescBy (fun r => r.start) spans

/-- The placeholders a `deidentify_text` call generates, in processing order. -/
def deidPlaceholders (T : Str) (spans : List Span) (store : StoreMap) : List Str :=
  deidPhs T (deidSorted spans) (store, [])

/-- The `(span, placeholder, original)` triples of a `deidentify_text` call. -/
def deidTriples (T : Str) (spans : List Span) (store : StoreMap) :
    List (Span × Str × Str) :=
  ((deidSorted spans).zip (deidPlaceholders T spans store)).map
    (fun rp => (rp.1, rp.2, strSlice T rp.1.start rp.1.stop))

/-- The persisted store entries of a `deidentify_text` call sorted in
`reidentify_text`'s processing order (placeholder length descending). -/
def deidQueue (T : Str) (spans : List Span) (store : StoreMap) : List (Str × Str) :=
  sortDescBy (fun kv => kv.1.length) (deidentifyTransform T spans store).2

/-! ## Lemmas about the stable sorts -/

theorem insertDescBy_perm {α : Type} (key : α → Nat) (x : α) (l : List α) :
    (insertDescBy key x l).Perm (x :: l) := by
  induction l with
  | nil => simp [insertDescBy]
  | cons y t ih =>
    simp only [insertDescBy]
    split
    · exact List.Perm.refl _
    · exact (ih.cons y).trans (List.Perm.swap x y t)

theorem sortDescBy_perm {α : Type} (key : α → Nat) (l : List α) :
    (sortDescBy key l).Perm l := by
  induction l with
  | nil => simp [sortDescBy]
  | cons x t ih => exact (insertDescBy_perm key x _).trans (ih.cons x)

theorem insertDescBy_sorted {α : Type} (key : α → Nat) (x : α) (l : List α)
    (h : List.Sorted (fun a b => key b ≤ key a) l) :
    List.Sorted (fun a b => key b ≤ key a) (insertDescBy key x l) := by
  induction l with
  | nil => simp [insertDescBy]
  | cons y t ih =>
    rw [List.sorted_cons] at h
    simp only [insertDescBy]
    split
    · rename_i hle
      rw [List.sorted_cons]
      refine ⟨fun b hb => ?_, List.sorted_cons.mpr h⟩
      rcases List.mem_cons.mp hb with rfl | hb
      · exact hle
      · exact le_trans (h.1 b hb) hle
    · rename_i hgt
      rw [List.sorted_cons]
      refine ⟨fun b hb => ?_, ih h.2⟩
      rcases List.mem_cons.mp ((insertDescBy_perm key x t).mem_iff.mp hb) with rfl | hmem
      · omega
      · exact h.1 b hmem

theorem sortDescBy_sorted {α : Type} (key : α → Nat) (l : List α) :
    List.Sorted (fun a b => key b ≤ key a) (sortDescBy key l) := by
  induction l with
  | nil => simp [sortDescBy]
  | cons x t ih => exact insertDescBy_sorted key x _ ih

theorem insertAscBy_perm {α : Type} (key : α → Nat) (x : α) (l : List α) :
    (insertAscBy key x l).Perm (x :: l) := by
  induction l with
  | nil => simp [insertAscBy]
  | cons y t ih =>
    simp only [insertAscBy]
    split
    · exact List.Perm.refl _
    · exact (ih.cons y).trans (List.Perm.swap x y t)

theorem sortAscBy_perm {α : Type} (key : α → Nat) (l : List α) :
    (sortAscBy key l).Perm l := by
  induction l with
  | nil => simp [sortAscBy]
  | cons x t ih => exact (insertAscBy_perm key x _).trans (ih.cons x)

theorem insertAscBy_sorted {α : Type} (key : α → Nat) (x : α) (l : List α)
    (h : List.Sorted (fun a b => key a ≤ key b) l) :
    List.Sorted (fun a b => key a ≤ key b) (insertAscBy key x l) := by
  induction l with
  | nil => simp [insertAscBy]
  | cons y t ih =>
    rw [List.sorted_cons] at h
    simp only [insertAscBy]
    split
    · rename_i hle
      rw [List.sorted_cons]
      refine ⟨fun b hb => ?_, List.sorted_cons.mpr h⟩
      rcases List.mem_cons.mp hb with rfl | hb
      · exact hle
      · exact le_trans hle (h.1 b hb)
    · rename_i hgt
      rw [List.sorted_cons]
      refine ⟨fun b hb => ?_, ih h.2⟩
      rcases List.mem_cons.mp ((insertAscBy_perm key x t).mem_iff.mp hb) with rfl | hmem
      · omega
      · exact h.1 b hmem

theorem sortAscBy_sorted {α : Type} (key : α → Nat) (l : List α) :
    List.Sorted (fun a b => key a ≤ key b) (sortAscBy key l) := by
  induction l with
  | nil => simp [sortAscBy]
  | cons x t ih => exact insertAscBy_sorted key x _ ih

/-! ## C7 — the type filter -/

/-- C7: for every span list, the type filter with an empty enabled-type set
returns all spans unchanged (empty means no filtering), and with a non-empty
enabled set returns exactly the spans whose `entity_type` is a member. -/
theorem filter_by_entity_types_spec (results : List Span) (enabled : List Str) :
    (enabled = [] → filter_by_entity_types results enabled = results) ∧
    (enabled ≠ [] →
      filter_by_entity_types results enabled =
        results.filter (fun r => r.entity_type ∈ enabled)) := by
  constructor <;> intro h <;> simp [filter_by_entity_types, h]

theorem filter_by_entity_types_spec_witness :
    filter_by_entity_types
        [⟨0, 1, ['A'], score10⟩, ⟨1, 2, ['B'], score10⟩] [] =
      [⟨0, 1, ['A'], score10⟩, ⟨1, 2, ['B'], score10⟩] ∧
    filter_by_entity_types
        [⟨0, 1, ['A'], score10⟩, ⟨1, 2, ['B'], score10⟩] [['B']] =
      [⟨1, 2, ['B'], score10⟩] := by
  constructor
  · exact (filter_by_entity_types_spec _ _).1 rfl
  · rw [(filter_by_entity_types_spec _ _).2 (by decide)]; decide

/-! ## C8 — loading the mapping store -/

/-- C8 (counterexample): an existing but unreadable backing file does *not*
produce the empty mapping: the `OSError` escapes `except json.JSONDecodeError`
and the load raises. -/
theorem load_mappings_unreadable_raises :
    load_mappings MappingFile.unreadable = Except.error () := rfl

/-- C8 (amended): the load returns the stored mapping; an absent file or a
file whose content fails JSON parsing yields the empty mapping without
raising; an OS-level read error propagates (previous theorem). -/
theorem load_mappings_spec :
    load_mappings MappingFile.absent = Except.ok [] ∧
    load_mappings MappingFile.malformed = Except.ok [] ∧
    ∀ m : StoreMap, load_mappings (MappingFile.stored m) = Except.ok m := by
  refine ⟨rfl, rfl, fun m => rfl⟩

/-! ## C9 — Deidentify with an empty resolved span set is a no-op -/

/-- C9: whenever resolution yields zero spans, `deidentify_text` returns the
input text unchanged with entity count 0, and persists exactly the mapping it
loaded. -/
theorem deidentify_text_noop (text : Str) (raw : List Span)
    (enabled ignore custom : List Str) (store : StoreMap)
    (h : resolveSpans text raw enabled ignore custom = []) :
    deidentify_text text raw enabled ignore custom store = ((text, 0), store) := by
  unfold deidentify_text
  rw [h]
  rfl

theorem deidentify_text_noop_witness :
    resolveSpans ['h', 'i'] [] [] [] [] = [] ∧
    deidentify_text ['h', 'i'] [] [] [] [] [(['A'], ['z'])] =
      ((['h', 'i'], 0), [(['A'], ['z'])]) :=
  ⟨by decide, deidentify_text_noop _ _ _ _ _ _ (by decide)⟩

/-! ## C2 — Reidentify -/

/-- C2: `reidentify_text` loads the mapping, sorts its entries by placeholder
string length descending (the sort is a length-descending-sorted permutation
of the store), replaces every literal occurrence of each placeholder in that
order by its original value (`pyReplace` is global substring replacement),
always returns entity count 0, and leaves the store unchanged. -/
theorem reidentify_text_spec (text : Str) (store : StoreMap) :
    reidentify_text text store =
      (((sortDescBy (fun kv => kv.1.length) store).foldl
          (fun acc kv => pyReplace acc kv.1 kv.2) text, 0), store) ∧
    (sortDescBy (fun kv => kv.1.length) store).Perm store ∧
    List.Sorted (fun a b : Str × Str => b.1.length ≤ a.1.length)
      (sortDescBy (fun kv => kv.1.length) store) ∧
    (reidentify_text text store).1.2 = 0 ∧
    (reidentify_text text store).2 = store :=
  ⟨rfl, sortDescBy_perm _ store, sortDescBy_sorted _ store, rfl, rfl⟩

/-! ## C3 — placeholder allocation -/

/-- C3: when the per-call counter for an entity type is not yet initialized,
the allocated placeholder is `"{t}_{n:03d}"` where `n` is one greater than
the number of keys of the current mapping prefixed `"{t}_"`; and two
sequential single-`PERSON` Deidentify calls starting from the empty store
produce `PERSON_001` and then `PERSON_002`. -/
theorem allocate_spec :
    (∀ (text : Str) (mc : StoreMap × Counters) (r : Span),
        dictLookup mc.2 r.entity_type = none →
        (deidAlloc text mc r).2 =
          r.entity_type ++ '_' :: pad3 (countTypeKeys mc.1 r.entity_type + 1)) ∧
    (deidentifyTransform ['J', 'o', 'h', 'n'] [⟨0, 4, personType, score10⟩] []).1.1 =
      "PERSON_001".data ∧
    (deidentifyTransform ['M', 'a', 'r', 'y'] [⟨0, 4, personType, score10⟩]
        (deidentifyTransform ['J', 'o', 'h', 'n'] [⟨0, 4, personType, score10⟩] []).2).1.1 =
      "PERSON_002".data := by
  refine ⟨fun text mc r h => ?_, by decide, by decide⟩
  simp [deidAlloc, h, mkPlaceholder]

theorem allocate_spec_witness :
    dictLookup ([] : Counters) personType = none ∧
    (deidAlloc ['J', 'o'] (([] : StoreMap), ([] : Counters)) ⟨0, 2, personType, score10⟩).2 =
      personType ++ '_' :: pad3 (countTypeKeys [] personType + 1) :=
  ⟨rfl, allocate_spec.1 ['J', 'o'] ([], []) ⟨0, 2, personType, score10⟩ rfl⟩

/-! ## Lemmas about the adjacency merge -/

/-- Every span emitted by `mergeAux` takes its `start` from an element of the
input list or from the accumulator. -/
theorem mergeAux_start_mem : ∀ (l : List Span) (acc : Option Span) (y : Span),
    y ∈ mergeAux l acc →
    (∃ x ∈ l, x.start = y.start) ∨ ∃ m, acc = some m ∧ m.start = y.start := by
  intro l
  induction l with
  | nil =>
    intro acc y hy
    match acc with
    | none => simp [mergeAux] at hy
    | some m =>
      simp only [mergeAux, List.mem_singleton] at hy
      exact Or.inr ⟨m, rfl, by rw [hy]⟩
  | cons r rest ih =>
    intro acc y hy
    match acc with
    | none =>
      simp only [mergeAux] at hy
      split at hy
      · rcases ih _ y hy with ⟨x, hx, hxy⟩ | ⟨m, hm, hmy⟩
        · exact Or.inl ⟨x, List.mem_cons_of_mem r hx, hxy⟩
        · cases hm
          exact Or.inl ⟨r, List.mem_cons_self r rest, hmy⟩
      · rcases List.mem_cons.mp hy with rfl | hy'
        · exact Or.inl ⟨y, List.mem_cons_self y rest, rfl⟩
        · rcases ih none y hy' with ⟨x, hx, hxy⟩ | ⟨m, hm, _⟩
          · exact Or.inl ⟨x, List.mem_cons_of_mem r hx, hxy⟩
          · cases hm
    | some m =>
      simp only [mergeAux] at hy
      split at hy
      · rcases ih _ y hy with ⟨x, hx, hxy⟩ | ⟨m', hm', hmy⟩
        · exact Or.inl ⟨x, List.mem_cons_of_mem r hx, hxy⟩
        · cases hm'
          exact Or.inr ⟨m, rfl, hmy⟩
      · rcases List.mem_cons.mp hy with h | hy'
        · exact Or.inr ⟨m, rfl, by rw [h]⟩
        · split at hy'
          · rcases ih _ y hy' with ⟨x, hx, hxy⟩ | ⟨m', hm', hmy⟩
            · exact Or.inl ⟨x, List.mem_cons_of_mem r hx, hxy⟩
            · cases hm'
              exact Or.inl ⟨r, List.mem_cons_self r rest, hmy⟩
          · rcases List.mem_cons.mp hy' with rfl | hy''
            · exact Or.inl ⟨y, List.mem_cons_self y rest, rfl⟩
            · rcases ih none y hy'' with ⟨x, hx, hxy⟩ | ⟨m', hm', _⟩
              · exact Or.inl ⟨x, List.mem_cons_of_mem r hx, hxy⟩
              · cases hm'

/-- `mergeAux` maps a start-sorted list (with an accumulator that lower-bounds
it) to a start-sorted list. -/
theorem mergeAux_sorted : ∀ (l : List Span) (acc : Option Span),
    List.Sorted (fun a b : Span => a.start ≤ b.start) l →
    (∀ m, acc = some m → ∀ x ∈ l, m.start ≤ x.start) →
    List.Sorted (fun a b : Span => a.start ≤ b.start) (mergeAux l acc) := by
  intro l
  induction l with
  | nil =>
    intro acc _ _
    match acc with
    | none => simp [mergeAux]
    | some m => simp [mergeAux]
  | cons r rest ih =>
    intro acc hs hacc
    rw [List.sorted_cons] at hs
    obtain ⟨hr, hrest⟩ := hs
    have hinner : ∀ hP : r.entity_type = personType, List.Sorted (fun a b : Span => a.start ≤ b.start)
        (mergeAux rest (some ⟨r.start, r.stop, personType, r.score⟩)) := fun _ =>
      ih _ hrest (fun m hm x hx => by cases hm; exact hr x hx)
    have hinner2 : List.Sorted (fun a b : Span => a.start ≤ b.start)
        (r :: mergeAux rest none) := by
      rw [List.sorted_cons]
      refine ⟨fun y hy => ?_, ih none hrest (by simp)⟩
      rcases mergeAux_start_mem rest none y hy with ⟨x, hx, hxy⟩ | ⟨m, hm, _⟩
      · rw [← hxy]; exact hr x hx
      · cases hm
    match acc with
    | none =>
      simp only [mergeAux]
      split
      · exact hinner (by assumption)
      · exact hinner2
    | some m =>
      have hm : ∀ x ∈ r :: rest, m.start ≤ x.start := hacc m rfl
      simp only [mergeAux]
      split
      · refine ih _ hrest (fun m' hm' x hx => ?_)
        cases hm'
        exact hm x (List.mem_cons_of_mem r hx)
      · rw [List.sorted_cons]
        constructor
        · intro y hy
          have hry : m.start ≤ r.start := hm r (List.mem_cons_self r rest)
          split at hy
          · rcases mergeAux_start_mem rest _ y hy with ⟨x, hx, hxy⟩ | ⟨m', hm', hmy⟩
            · rw [← hxy]; exact hm x (List.mem_cons_of_mem r hx)
            · cases hm'
              rw [← hmy]; exact hry
          · rcases List.mem_cons.mp hy with rfl | hy'
            · exact hry
            · rcases mergeAux_start_mem rest none y hy' with ⟨x, hx, hxy⟩ | ⟨m', hm', _⟩
              · rw [← hxy]; exact hm x (List.mem_cons_of_mem r hx)
              · cases hm'
        · split
          · exact hinner (by assumption)
          · exact hinner2

/-! ## C10 — the resolver output is sorted by start -/

/-- C10: for every input span list (sorted or not), the output of the
adjacency-merge stage is sorted by non-decreasing start offset. -/
theorem merge_adjacent_persons_output_sorted (text : Str) (results : List Span) :
    List.Sorted (fun a b : Span => a.start ≤ b.start)
      (merge_adjacent_persons text results) := by
  unfold merge_adjacent_persons
  split
  · simp_all
  · exact mergeAux_sorted _ none (sortAscBy_sorted _ _) (by simp)

/-! ## C5 — the adjacency merge matches its specification sentence -/

/-- The streaming loop of the source equals the collect-runs-then-collapse
reading of the specification, under the correspondence
`acc = some (collapseRun f run) ↔ run state (f, run)`. -/
theorem mergeAux_eq_specMergeAux : ∀ (l : List Span),
    (mergeAux l none = specMergeAux l none) ∧
    (∀ f run, mergeAux l (some (collapseRun f run)) = specMergeAux l (some (f, run))) := by
  intro l
  induction l with
  | nil => exact ⟨rfl, fun f run => rfl⟩
  | cons r rest ih =>
    have hstep : ∀ f run, (⟨(collapseRun f run).start, r.stop, personType,
        (collapseRun f run).score⟩ : Span) = collapseRun f (run ++ [r]) := by
      intro f run
      simp [collapseRun, List.getLastD_concat]
    constructor
    · simp only [mergeAux, specMergeAux]
      split
      · exact ih.2 r []
      · rw [ih.1]
    · intro f run
      simp only [mergeAux, specMergeAux]
      by_cases hc : r.entity_type = personType ∧
          (r.start : Int) - ((run.getLastD f).stop : Int) ≤ 3
      · rw [if_pos (show r.entity_type = personType ∧
              (r.start : Int) - ((collapseRun f run).stop : Int) ≤ 3 from hc),
            if_pos hc, hstep f run]
        exact ih.2 f (run ++ [r])
      · rw [if_neg (show ¬ (r.entity_type = personType ∧
              (r.start : Int) - ((collapseRun f run).stop : Int) ≤ 3) from hc),
            if_neg hc]
        congr 1
        by_cases hp : r.entity_type = personType
        · rw [if_pos hp, if_pos hp]
          exact ih.2 r []
        · rw [if_neg hp, if_neg hp, ih.1]

/-- C5: after sorting by start, every maximal run of `PERSON` spans in which
each successor starts at most 3 characters after the previous span's end is
collapsed into one `PERSON` span covering `[first.start, last.end]` with the
first span's score, non-`PERSON` spans passing through in sorted position
(`merge_adjacent_persons_claim` is that description verbatim); in particular
`PERSON` spans `[0,5)` and `[7,11)` in `"Smith, John"` resolve to exactly the
one span `[0,11)`. -/
theorem merge_adjacent_persons_spec :
    (∀ (text : Str) (results : List Span),
        merge_adjacent_persons text results = merge_adjacent_persons_claim text results) ∧
    merge_adjacent_persons "Smith, John".data
        [⟨0, 5, personType, score10⟩, ⟨7, 11, personType, score085⟩] =
      [⟨0, 11, personType, score10⟩] := by
  constructor
  · intro text results
    unfold merge_adjacent_persons merge_adjacent_persons_claim
    split
    · rfl
    · exact (mergeAux_eq_specMergeAux _).1
  · decide

/-! ## C4 — pattern augmentation -/

/-- C4 (counterexample): in `"Smith,   John"` (three spaces) with the single
`PERSON` span `[9,13)`, the code *does* add the lastname span `[0,5)` even
though no kept `PERSON` span starts within `[6, 8]` — the window
`[comma_end, comma_end + 2]` measured from the position immediately after the
comma (the comma is at index 5).  The code anchors its window at the end of
the matched whitespace run instead. -/
theorem post_process_lastname_firstname_claim_cex :
    post_process_lastname_firstname "Smith,   John".data
        [⟨9, 13, personType, score10⟩] =
      [⟨9, 13, personType, score10⟩, ⟨0, 5, personType, score085⟩] ∧
    ¬ ∃ p ∈ [(⟨9, 13, personType, score10⟩ : Span)],
        p.entity_type = personType ∧ 6 ≤ p.start ∧ p.start ≤ 6 + 2 := by
  constructor
  · decide
  · decide

/-- C4 (amended): a candidate lastname matched by the
capitalized-word-comma-whitespace pattern is added (as a `PERSON` span with
score 0.85) if and only if some already-kept `PERSON` span starts within
`[match_end, match_end + 2]`, where `match_end` is the end of the matched
comma-plus-whitespace run, and the candidate does not meet the code's overlap
test against any existing `PERSON` span (spans of other types are not
consulted). -/
theorem post_process_lastname_firstname_char (text : Str) (results : List Span)
    (s : Span) :
    s ∈ post_process_lastname_firstname text results ↔
      s ∈ results ∨
      ∃ m ∈ lnFindIter text,
        s = ⟨m.1, m.2.1, personType, score085⟩ ∧
        (∃ p ∈ results, p.entity_type = personType ∧
            m.2.2 ≤ p.start ∧ p.start ≤ m.2.2 + 2) ∧
        ¬ ∃ p ∈ results, p.entity_type = personType ∧
            ((p.start ≤ m.1 ∧ m.1 < p.stop) ∨ (p.start < m.2.1 ∧ m.2.1 ≤ p.stop)) := by
  unfold post_process_lastname_firstname
  rw [List.mem_append, List.mem_filterMap]
  refine or_congr Iff.rfl ⟨?_, ?_⟩
  · rintro ⟨m, hm, hf⟩
    refine ⟨m, hm, ?_⟩
    by_cases hfound : (results.filter (fun r => r.entity_type = personType)).any
        (fun p => m.2.2 ≤ p.start && p.start ≤ m.2.2 + 2) = true
    · rw [if_pos hfound] at hf
      by_cases hov : (results.filter (fun r => r.entity_type = personType)).any
          (fun p => (p.start ≤ m.1 && m.1 < p.stop) || (p.start < m.2.1 && m.2.1 ≤ p.stop)) = true
      · rw [if_pos hov] at hf
        exact absurd hf (by simp)
      · rw [if_neg hov] at hf
        replace hf := (Option.some_inj.mp hf).symm
        refine ⟨hf, ?_, ?_⟩
        · obtain ⟨p, hp, hcond⟩ := List.any_eq_true.mp hfound
          rw [List.mem_filter] at hp
          exact ⟨p, hp.1, by simpa using hp.2, by simpa using hcond⟩
        · rintro ⟨p, hp, hP, hcond⟩
          refine hov (List.any_eq_true.mpr ⟨p, List.mem_filter.mpr ⟨hp, by simpa using hP⟩, ?_⟩)
          simpa using hcond
    · rw [if_neg hfound] at hf
      exact absurd hf (by simp)
  · rintro ⟨m, hm, rfl, ⟨p, hp, hP, hc1, hc2⟩, hnov⟩
    refine ⟨m, hm, ?_⟩
    have hfound : (results.filter (fun r => r.entity_type = personType)).any
        (fun p => m.2.2 ≤ p.start && p.start ≤ m.2.2 + 2) = true :=
      List.any_eq_true.mpr ⟨p, List.mem_filter.mpr ⟨hp, by simpa using hP⟩, by simp [hc1, hc2]⟩
    rw [if_pos hfound]
    have hov : ¬ (results.filter (fun r => r.entity_type = personType)).any
        (fun p => (p.start ≤ m.1 && m.1 < p.stop) || (p.start < m.2.1 && m.2.1 ≤ p.stop)) = true := by
      intro h
      obtain ⟨q, hq, hcond⟩ := List.any_eq_true.mp h
      rw [List.mem_filter] at hq
      exact hnov ⟨q, hq.1, by simpa using hq.2, by simpa using hcond⟩
    rw [if_neg hov]

/-! ## C6 — custom-name injection -/

/-- C6 (counterexample): with custom names `["John", "John Smith"]` and no
input spans, `"john smith works here"` receives *two* injected spans, the
second of which intersects the span injected for the earlier name — the code
checks overlap only against the input span list, not against spans injected
earlier in the same call. -/
theorem add_custom_names_claim_cex :
    add_custom_names "john smith works here".data []
        ["John".data, "John Smith".data] =
      [⟨0, 4, personType, score10⟩, ⟨0, 10, personType, score10⟩] ∧
    spansIntersect ⟨0, 4, personType, score10⟩ ⟨0, 10, personType, score10⟩ := by
  constructor
  · decide
  · exact ⟨by decide, by decide⟩

/-- C6 (amended): for every name in the custom list and every
case-insensitive word-boundary occurrence, a `PERSON` span with score 1.0 is
added if and only if the occurrence does not meet the code's overlap test
(`r.start ≤ occ.start < r.stop` or `r.start < occ.end ≤ r.stop`) against any
span of the *input* list — spans injected for earlier names in the same call
are not consulted; the single-name case-insensitivity example of the claim
still holds. -/
theorem add_custom_names_char :
    (∀ (text : Str) (results : List Span) (names : List Str) (s : Span),
      s ∈ add_custom_names text results names ↔
        s ∈ results ∨
        ∃ name ∈ names, ∃ occ ∈ nameFindIter text name,
          s = ⟨occ.1, occ.2, personType, score10⟩ ∧
          ¬ ∃ r ∈ results,
              ((r.start ≤ occ.1 ∧ occ.1 < r.stop) ∨ (r.start < occ.2 ∧ occ.2 ≤ r.stop))) ∧
    add_custom_names "john smith works here".data [] ["John Smith".data] =
      [⟨0, 10, personType, score10⟩] := by
  constructor
  · intro text results names s
    unfold add_custom_names
    by_cases hn : names = []
    · subst hn
      simp
    · rw [if_neg hn, List.mem_append, List.mem_flatMap]
      refine or_congr Iff.rfl ⟨?_, ?_⟩
      · rintro ⟨name, hname, hocc⟩
        rw [List.mem_filterMap] at hocc
        obtain ⟨occ, hoccmem, hf⟩ := hocc
        by_cases hov : results.any (fun r =>
            (r.start ≤ occ.1 && occ.1 < r.stop) || (r.start < occ.2 && occ.2 ≤ r.stop)) = true
        · rw [if_pos hov] at hf
          exact absurd hf (by simp)
        · rw [if_neg hov] at hf
          refine ⟨name, hname, occ, hoccmem, (Option.some_inj.mp hf).symm, ?_⟩
          rintro ⟨r, hr, hcond⟩
          exact hov (List.any_eq_true.mpr ⟨r, hr, by simpa using hcond⟩)
      · rintro ⟨name, hname, occ, hoccmem, rfl, hnov⟩
        refine ⟨name, hname, List.mem_filterMap.mpr ⟨occ, hoccmem, ?_⟩⟩
        have hov : ¬ results.any (fun r =>
            (r.start ≤ occ.1 && occ.1 < r.stop) || (r.start < occ.2 && occ.2 ≤ r.stop)) = true := by
          intro h
          obtain ⟨r, hr, hcond⟩ := List.any_eq_true.mp h
          exact hnov ⟨r, hr, by simpa using hcond⟩
        rw [if_neg hov]
  · decide

/-! ## Lemmas about `pyReplace` -/

/-- Consuming a matched block: the scanner with `skip = |x|` silently drops
`x` and continues fresh. -/
theorem replaceAux_append_skip (pat rep : Str) : ∀ (x y : Str),
    replaceAux pat rep (x ++ y) x.length = replaceAux pat rep y 0 := by
  intro x
  induction x with
  | nil => intro y; rfl
  | cons c x' ih => intro y; exact ih y

/-- If `pat` occurs nowhere in `s`, the scanner copies `s` verbatim. -/
theorem replaceAux_no_occ (pat rep : Str) : ∀ (s : Str),
    (∀ k, occursAt pat s k = false) → replaceAux pat rep s 0 = s := by
  intro s
  induction s with
  | nil => intro _; rfl
  | cons c rest ih =>
    intro h
    have h0 : pat.isPrefixOf (c :: rest) = false := by simpa [occursAt] using h 0
    simp only [replaceAux, h0, Bool.false_eq_true, if_false, List.cons.injEq, true_and]
    exact ih (fun k => h (k + 1))

/-- If `pat` occurs nowhere in `s`, `pyReplace` is the identity. -/
theorem pyReplace_no_occ (pat rep s : Str) (hpat : pat ≠ [])
    (h : ∀ k, occursAt pat s k = false) : pyReplace s pat rep = s := by
  unfold pyReplace
  rw [if_neg hpat]
  exact replaceAux_no_occ pat rep s h

/-- An occurrence of `pat` with index `≥ |x| + k` inside `x ++ pat ++ A`
restricted to `A` (`|x| = pat.length` instance used below). -/
theorem occursAt_append_right (pat x A : Str) (k : Nat) :
    occursAt pat A k = occursAt pat (x ++ A) (x.length + k) := by
  unfold occursAt
  rw [List.drop_append_eq_append_drop]
  rw [List.drop_eq_nil_of_le (by omega : x.length ≤ x.length + k)]
  simp

/-- If the occurrences of `pat` in `B ++ pat ++ A` are exactly the designated
one at index `|B|`, the scanner replaces exactly there. -/
theorem replaceAux_single (pat rep : Str) (hpat : pat ≠ []) : ∀ (B A : Str),
    (∀ k, occursAt pat (B ++ pat ++ A) k = true → k = B.length) →
    replaceAux pat rep (B ++ pat ++ A) 0 = B ++ rep ++ A := by
  intro B
  induction B with
  | nil =>
    intro A h
    obtain ⟨c, pat', rfl⟩ : ∃ c pat', pat = c :: pat' := by
      cases pat with
      | nil => exact absurd rfl hpat
      | cons c pat' => exact ⟨c, pat', rfl⟩
    have hpre : (c :: pat').isPrefixOf (c :: (pat' ++ A)) = true := by
      rw [List.isPrefixOf_iff_prefix]
      exact List.prefix_append (c :: pat') A
    show replaceAux (c :: pat') rep ((c :: pat') ++ A) 0 = [] ++ rep ++ A
    rw [show (c :: pat') ++ A = c :: (pat' ++ A) from rfl]
    simp only [replaceAux]
    rw [if_pos hpre]
    have hskip : replaceAux (c :: pat') rep (pat' ++ A) ((c :: pat').length - 1) =
        replaceAux (c :: pat') rep A 0 := by
      have := replaceAux_append_skip (c :: pat') rep pat' A
      simpa using this
    rw [hskip, replaceAux_no_occ _ _ A ?_]
    · simp
    · intro k
      by_contra hk
      rw [Bool.not_eq_false] at hk
      have hk' : occursAt (c :: pat') ([] ++ (c :: pat') ++ A)
          ((c :: pat').length + k) = true := by
        rw [List.nil_append, ← occursAt_append_right (c :: pat') (c :: pat') A k]
        exact hk
      have := h _ hk'
      simp at this
  | cons b B' ih =>
    intro A h
    have h0 : pat.isPrefixOf (b :: (B' ++ pat ++ A)) = false := by
      by_contra hx
      rw [Bool.not_eq_false] at hx
      have := h 0 (by simpa [occursAt] using hx)
      simp at this
    show replaceAux pat rep (b :: (B' ++ pat ++ A)) 0 = (b :: B') ++ rep ++ A
    simp only [replaceAux, h0, Bool.false_eq_true, if_false, List.cons_append,
      List.cons.injEq, true_and]
    exact ih A (fun k hk => by
      have := h (k + 1) (by
        show occursAt pat (b :: (B' ++ pat ++ A)) (k + 1) = true
        simpa [occursAt] using hk)
      simp only [List.length_cons] at this
      omega)

/-- `pyReplace` on a text whose only occurrence of `pat` is the designated
slot fills the slot. -/
theorem pyReplace_single (pat rep B A : Str) (hpat : pat ≠ [])
    (h : ∀ k, occursAt pat (B ++ pat ++ A) k = true → k = B.length) :
    pyReplace (B ++ pat ++ A) pat rep = B ++ rep ++ A := by
  unfold pyReplace
  rw [if_neg hpat]
  exact replaceAux_single pat rep hpat B A h

/-! ## Lemmas about `descOKb`, `splice` and `buildText` -/

theorem descOKb_mono : ∀ (R : List Span) (b b' : Nat), b ≤ b' →
    descOKb b R = true → descOKb b' R = true := by
  intro R b b' hbb h
  cases R with
  | nil => rfl
  | cons r l =>
    simp only [descOKb, Bool.and_eq_true, decide_eq_true_eq] at h ⊢
    exact ⟨⟨h.1.1, le_trans h.1.2 hbb⟩, h.2⟩

theorem descOKb_stop_le : ∀ (R : List Span) (b : Nat), descOKb b R = true →
    ∀ r ∈ R, r.stop ≤ b := by
  intro R
  induction R with
  | nil => intro b _ r hr; cases hr
  | cons x l ih =>
    intro b h r hr
    simp only [descOKb, Bool.and_eq_true, decide_eq_true_eq] at h
    rcases List.mem_cons.mp hr with rfl | hr'
    · exact h.1.2
    · exact le_trans (ih x.start h.2 r hr') (le_trans h.1.1 h.1.2)

theorem splice_append (A B : Str) (s e : Nat) (p : Str) (hs : s ≤ A.length)
    (he : e ≤ A.length) : splice (A ++ B) s e p = splice A s e p ++ B := by
  unfold splice
  rw [List.take_append_eq_append_take, List.drop_append_eq_append_drop]
  rw [show s - A.length = 0 by omega, show e - A.length = 0 by omega]
  simp

theorem splice_length_ge (A : Str) (s e : Nat) (p : Str) (hs : s ≤ A.length) :
    s ≤ (splice A s e p).length := by
  simp only [splice, List.length_append, List.length_take]
  omega

theorem strSlice_take (T : Str) (s' e' s : Nat) (h : e' ≤ s) :
    strSlice (T.take s) s' e' = strSlice T s' e' := by
  unfold strSlice
  rw [List.drop_take, List.take_take, min_eq_left (by omega)]

/-- Filling every slot with the matching slice of `T` rebuilds `T`. -/
theorem buildText_restore : ∀ (R : List Span) (T : Str), descOKb T.length R = true →
    buildText T (R.map (fun r => (r, strSlice T r.start r.stop))) = T := by
  intro R
  induction R with
  | nil => intro T _; rfl
  | cons r R' ih =>
    intro T h
    simp only [descOKb, Bool.and_eq_true, decide_eq_true_eq] at h
    obtain ⟨⟨hse, heT⟩, hR'⟩ := h
    simp only [List.map_cons, buildText]
    have hmap : R'.map (fun x => (x, strSlice T x.start x.stop)) =
        R'.map (fun x => (x, strSlice (T.take r.start) x.start x.stop)) := by
      apply List.map_congr_left
      intro x hx
      rw [strSlice_take T x.start x.stop r.start (descOKb_stop_le R' r.start hR' x hx)]
    have hlen : (T.take r.start).length = r.start := by
      rw [List.length_take, min_eq_left (by omega)]
    rw [hmap, ih (T.take r.start) (by rw [hlen]; exact hR')]
    calc T.take r.start ++ strSlice T r.start r.stop ++ T.drop r.stop
        = T.take r.start ++ (strSlice T r.start r.stop ++ T.drop r.stop) :=
          List.append_assoc _ _ _
      _ = T.take r.start ++ T.drop r.start := by
          congr 1
          conv_rhs => rw [← List.take_append_drop (r.stop - r.start) (T.drop r.start)]
          congr 1
          rw [List.drop_drop]
          congr 1
          omega
      _ = T := List.take_append_drop _ _

/-! ## Characterizing the `deidentify_text` loop -/

/-- Working-text prefix independence: when every span of `R` lies within the
prefix `A`, the loop leaves the appended `B` untouched and never reads it
(the recorded originals come from the fixed original `text`). -/
theorem foldl_deidStep_append (text : Str) : ∀ (R : List Span) (m : StoreMap)
    (c : Counters) (A B : Str), descOKb A.length R = true →
    R.foldl (deidentifyStep text) (m, c, A ++ B) =
      ((R.foldl (deidentifyStep text) (m, c, A)).1,
       (R.foldl (deidentifyStep text) (m, c, A)).2.1,
       (R.foldl (deidentifyStep text) (m, c, A)).2.2 ++ B) := by
  intro R
  induction R with
  | nil => intro m c A B _; rfl
  | cons r R' ih =>
    intro m c A B h
    simp only [descOKb, Bool.and_eq_true, decide_eq_true_eq] at h
    obtain ⟨⟨hse, heA⟩, hR'⟩ := h
    simp only [List.foldl_cons]
    have hstep : deidentifyStep text (m, c, A ++ B) r =
        ((deidAlloc text (m, c) r).1.1, (deidAlloc text (m, c) r).1.2,
          splice A r.start r.stop (deidAlloc text (m, c) r).2 ++ B) := by
      show ((deidAlloc text (m, c) r).1.1, (deidAlloc text (m, c) r).1.2,
          splice (A ++ B) r.start r.stop (deidAlloc text (m, c) r).2) = _
      rw [splice_append A B _ _ _ (le_trans hse heA) heA]
    rw [hstep]
    have hok : descOKb (splice A r.start r.stop (deidAlloc text (m, c) r).2).length R' =
        true :=
      descOKb_mono R' r.start _ (splice_length_ge A _ _ _ (le_trans hse heA)) hR'
    rw [ih _ _ _ B hok]
    rfl

/-- The loop's full characterization on a descending disjoint in-bound span
list: the mapping/counter state is `deidMC`, and the final text is the input
text with each span's region overwritten by its placeholder. -/
theorem deid_char (text : Str) : ∀ (R : List Span) (m : StoreMap) (c : Counters)
    (d : Str), descOKb d.length R = true →
    R.foldl (deidentifyStep text) (m, c, d) =
      ((deidMC text R (m, c)).1, (deidMC text R (m, c)).2,
        buildText d (R.zip (deidPhs text R (m, c)))) := by
  intro R
  induction R with
  | nil => intro m c d _; rfl
  | cons r R' ih =>
    intro m c d h
    simp only [descOKb, Bool.and_eq_true, decide_eq_true_eq] at h
    obtain ⟨⟨hse, heD⟩, hR'⟩ := h
    simp only [List.foldl_cons]
    have hsd : r.start ≤ d.length := le_trans hse heD
    have hstep : deidentifyStep text (m, c, d) r =
        ((deidAlloc text (m, c) r).1.1, (deidAlloc text (m, c) r).1.2,
          d.take r.start ++ ((deidAlloc text (m, c) r).2 ++ d.drop r.stop)) := by
      show ((deidAlloc text (m, c) r).1.1, (deidAlloc text (m, c) r).1.2,
          splice d r.start r.stop (deidAlloc text (m, c) r).2) = _
      unfold splice
      rw [List.append_assoc]
    rw [hstep]
    have hlen : (d.take r.start).length = r.start := by
      rw [List.length_take, min_eq_left hsd]
    rw [foldl_deidStep_append text R' _ _ (d.take r.start) _ (by rw [hlen]; exact hR')]
    rw [ih _ _ (d.take r.start) (by rw [hlen]; exact hR')]
    rw [show ∀ (x y z : Str), x ++ (y ++ z) = x ++ y ++ z from
      fun x y z => (List.append_assoc x y z).symm]
    rfl

theorem deidPhs_length (text : Str) : ∀ (R : List Span) (mc : StoreMap × Counters),
    (deidPhs text R mc).length = R.length := by
  intro R
  induction R with
  | nil => intro mc; rfl
  | cons r R' ih => intro mc; simp only [deidPhs, List.length_cons, ih]

/-- The store component of the loop state is the fold of dict insertions of
`(placeholder, original-slice)` pairs in processing order. -/
theorem deidMC_store (text : Str) : ∀ (R : List Span) (mc : StoreMap × Counters),
    (deidMC text R mc).1 =
      (R.zip (deidPhs text R mc)).foldl
        (fun m rp => dictInsert m rp.2 (strSlice text rp.1.start rp.1.stop)) mc.1 := by
  intro R
  induction R with
  | nil => intro mc; rfl
  | cons r R' ih =>
    intro mc
    show (deidMC text R' ((deidAlloc text mc r).1)).1 = _
    rw [ih]
    rfl

/-- Folding fresh dict insertions is plain appending. -/
theorem foldl_dictInsert_fresh : ∀ (pairs : List (Str × Str)) (m : StoreMap),
    (pairs.map Prod.fst).Nodup →
    (∀ p ∈ pairs.map Prod.fst, p ∉ m.map Prod.fst) →
    pairs.foldl (fun acc kv => dictInsert acc kv.1 kv.2) m = m ++ pairs := by
  intro pairs
  induction pairs with
  | nil => intro m _ _; simp
  | cons kv rest ih =>
    intro m hnd hf
    simp only [List.map_cons, List.nodup_cons] at hnd
    have hk : kv.1 ∉ m.map Prod.fst := hf kv.1 (by simp)
    have hins : dictInsert m kv.1 kv.2 = m ++ [(kv.1, kv.2)] := by
      unfold dictInsert
      rw [if_neg ?_]
      intro hx
      obtain ⟨e, he, heq⟩ := List.any_eq_true.mp hx
      exact hk (List.mem_map.mpr ⟨e, he, by simpa using heq⟩)
    rw [List.foldl_cons, hins, ih (m ++ [(kv.1, kv.2)]) hnd.2 ?_]
    · simp
    · intro p hp
      simp only [List.map_append, List.mem_append, List.map_cons, List.map_nil,
        List.mem_singleton]
      rintro (hpm | rfl)
      · exact hf p (List.mem_cons_of_mem _ hp) hpm
      · exact hnd.1 hp

/-- Mapping `g` over the first components of a same-length zip is mapping
over the first list. -/
theorem zip_map_fst {α β γ : Type} (g : α → γ) : ∀ (l : List α) (l' : List β),
    l.length = l'.length → (l.zip l').map (fun p => g p.1) = l.map g := by
  intro l
  induction l with
  | nil => intro l' _; rfl
  | cons x t ih =>
    intro l' h
    cases l' with
    | nil => simp at h
    | cons y t' =>
      simp only [List.zip_cons_cons, List.map_cons, List.length_cons] at h ⊢
      rw [ih t' (by omega)]

/-! ## Lemmas about `hybridText` -/

theorem fillWith_congr (d1 d2 : List Str) (h : ∀ x, x ∈ d1 ↔ x ∈ d2)
    (triples : List (Span × Str × Str)) : fillWith d1 triples = fillWith d2 triples := by
  unfold fillWith
  apply List.map_congr_left
  intro tr _
  by_cases hm : tr.2.1 ∈ d1
  · rw [if_pos hm, if_pos ((h tr.2.1).mp hm)]
  · rw [if_neg hm, if_neg (fun hx => hm ((h tr.2.1).mpr hx))]

theorem hybrid_congr (T : Str) (triples : List (Span × Str × Str))
    (d1 d2 : List Str) (h : ∀ x, x ∈ d1 ↔ x ∈ d2) :
    hybridText T triples d1 = hybridText T triples d2 := by
  unfold hybridText
  rw [fillWith_congr d1 d2 h]

theorem fillWith_cons_not_mem (p : Str) (done : List Str)
    (triples : List (Span × Str × Str)) (h : ∀ tr ∈ triples, tr.2.1 ≠ p) :
    fillWith (p :: done) triples = fillWith done triples := by
  unfold fillWith
  apply List.map_congr_left
  intro tr htr
  have hne := h tr htr
  by_cases hm : tr.2.1 ∈ done
  · rw [if_pos hm, if_pos (List.mem_cons_of_mem p hm)]
  · rw [if_neg hm, if_neg (fun hx => by
      rcases List.mem_cons.mp hx with he | hd
      · exact hne he
      · exact hm hd)]

theorem hybrid_not_ph (T : Str) (triples : List (Span × Str × Str))
    (done : List Str) (key : Str) (h : ∀ tr ∈ triples, tr.2.1 ≠ key) :
    hybridText T triples (key :: done) = hybridText T triples done := by
  unfold hybridText
  rw [fillWith_cons_not_mem key done triples h]

/-- Splitting the hybrid text at an unfilled slot: the text is
`B ++ placeholder ++ A`, and filling that slot gives `B ++ original ++ A`
with the same `B` and `A`. -/
theorem hybrid_split : ∀ (triples : List (Span × Str × Str)) (T : Str)
    (done : List Str) (tr : Span × Str × Str),
    tr ∈ triples →
    (triples.map (fun x => x.2.1)).Nodup →
    tr.2.1 ∉ done →
    ∃ B A : Str, hybridText T triples done = B ++ tr.2.1 ++ A ∧
      hybridText T triples (tr.2.1 :: done) = B ++ tr.2.2 ++ A := by
  intro triples
  induction triples with
  | nil => intro T done tr h; cases h
  | cons hd rest ih =>
    intro T done tr htr hnd hdone
    simp only [List.map_cons, List.nodup_cons] at hnd
    rcases List.mem_cons.mp htr with rfl | hmem
    · refine ⟨buildText (T.take tr.1.start) (fillWith done rest), T.drop tr.1.stop, ?_, ?_⟩
      · show buildText T (fillWith done (tr :: rest)) = _
        unfold fillWith
        simp only [List.map_cons]
        show buildText (T.take tr.1.start) (rest.map _) ++
            (if tr.2.1 ∈ done then tr.2.2 else tr.2.1) ++ T.drop tr.1.stop = _
        rw [if_neg hdone]
      · show buildText T (fillWith (tr.2.1 :: done) (tr :: rest)) = _
        unfold fillWith
        simp only [List.map_cons]
        show buildText (T.take tr.1.start) (rest.map _) ++
            (if tr.2.1 ∈ tr.2.1 :: done then tr.2.2 else tr.2.1) ++ T.drop tr.1.stop = _
        rw [if_pos (List.mem_cons_self _ _)]
        have : rest.map (fun x => (x.1, if x.2.1 ∈ tr.2.1 :: done then x.2.2 else x.2.1)) =
            rest.map (fun x => (x.1, if x.2.1 ∈ done then x.2.2 else x.2.1)) :=
          fillWith_cons_not_mem tr.2.1 done rest
            (fun x hx he => hnd.1 (he ▸ List.mem_map_of_mem _ hx))
        rw [this]
    · have hne : hd.2.1 ≠ tr.2.1 :=
        fun he => hnd.1 (he ▸ List.mem_map_of_mem (fun x => x.2.1) hmem)
      obtain ⟨B', A', h1, h2⟩ := ih (T.take hd.1.start) done tr hmem hnd.2 hdone
      refine ⟨B', A' ++ ((if hd.2.1 ∈ done then hd.2.2 else hd.2.1) ++ T.drop hd.1.stop),
        ?_, ?_⟩
      · show buildText T (fillWith done (hd :: rest)) = _
        unfold fillWith
        simp only [List.map_cons]
        show buildText (T.take hd.1.start) (rest.map _) ++
            (if hd.2.1 ∈ done then hd.2.2 else hd.2.1) ++ T.drop hd.1.stop = _
        have h1' : buildText (T.take hd.1.start)
            (rest.map (fun x => (x.1, if x.2.1 ∈ done then x.2.2 else x.2.1))) =
            B' ++ tr.2.1 ++ A' := h1
        rw [h1']
        simp [List.append_assoc]
      · show buildText T (fillWith (tr.2.1 :: done) (hd :: rest)) = _
        unfold fillWith
        simp only [List.map_cons]
        show buildText (T.take hd.1.start) (rest.map _) ++
            (if hd.2.1 ∈ tr.2.1 :: done then hd.2.2 else hd.2.1) ++ T.drop hd.1.stop = _
        have h2' : buildText (T.take hd.1.start)
            (rest.map (fun x => (x.1, if x.2.1 ∈ tr.2.1 :: done then x.2.2 else x.2.1))) =
            B' ++ tr.2.2 ++ A' := h2
        rw [h2']
        have hif : (if hd.2.1 ∈ tr.2.1 :: done then hd.2.2 else hd.2.1) =
            (if hd.2.1 ∈ done then hd.2.2 else hd.2.1) := by
          by_cases hm : hd.2.1 ∈ done
          · rw [if_pos hm, if_pos (List.mem_cons_of_mem _ hm)]
          · rw [if_neg hm, if_neg (fun hx => by
              rcases List.mem_cons.mp hx with he | hd'
              · exact hne he
              · exact hm hd')]
        rw [hif]
        simp [List.append_assoc]

/-! ## The occurrence-position list -/

theorem mem_occPositions (pat X : Str) (k : Nat) (hpat : pat ≠ []) :
    k ∈ occPositions pat X ↔ occursAt pat X k = true := by
  unfold occPositions
  rw [List.mem_filter, List.mem_range]
  constructor
  · rintro ⟨_, h⟩; exact h
  · intro h
    refine ⟨?_, h⟩
    have hle := (List.isPrefixOf_iff_prefix.mp h).length_le
    have hp : 0 < pat.length := List.length_pos.mpr hpat
    rw [List.length_drop] at hle
    omega

/-! ## The replacement loop restores all slots -/

/-- Walking `reidentify_text`'s replacement fold over the store entries, each
placeholder key — occurring exactly once, at its own slot — fills its slot,
and each foreign key — occurring nowhere — leaves the text unchanged. -/
theorem fold_hybrid : ∀ (Q : List (Str × Str)) (T : Str)
    (triples : List (Span × Str × Str)) (done : List Str),
    (triples.map (fun x => x.2.1)).Nodup →
    (∀ q ∈ Q, q.1 ≠ []) →
    (Q.map Prod.fst).Nodup →
    (∀ q ∈ Q, q.1 ∉ done) →
    (∀ q ∈ Q, q.1 ∈ triples.map (fun x => x.2.1) →
        (q.1, q.2) ∈ triples.map (fun x => (x.2.1, x.2.2))) →
    (∀ t (ht : t < Q.length),
        (occPositions (Q.get ⟨t, ht⟩).1
            (hybridText T triples (done ++ (Q.take t).map Prod.fst))).length =
          if (Q.get ⟨t, ht⟩).1 ∈ triples.map (fun x => x.2.1) then 1 else 0) →
    Q.foldl (fun acc kv => pyReplace acc kv.1 kv.2) (hybridText T triples done) =
      hybridText T triples (done ++ Q.map Prod.fst) := by
  intro Q
  induction Q with
  | nil => intro T triples done _ _ _ _ _ _; simp
  | cons q Q' ih =>
    intro T triples done hndph hne hndq hdone hval hstep
    have hq1ne : q.1 ≠ [] := hne q (List.mem_cons_self _ _)
    have hq0 := hstep 0 (by simp)
    simp only [List.take_zero, List.map_nil, List.append_nil, List.get] at hq0
    have hdq : q.1 ∉ done := hdone q (List.mem_cons_self _ _)
    simp only [List.map_cons, List.nodup_cons] at hndq
    -- restated target with `done` grown by q.1 at the head
    have hgrow : ∀ X, X = hybridText T triples ((q.1 :: done) ++ Q'.map Prod.fst) →
        X = hybridText T triples (done ++ (q :: Q').map Prod.fst) := by
      intro X hX
      rw [hX]
      apply hybrid_congr
      intro x
      simp only [List.cons_append, List.mem_cons, List.mem_append, List.map_cons]
      tauto
    -- the shifted step hypothesis for the tail
    have hstep' : ∀ t (ht : t < Q'.length),
        (occPositions (Q'.get ⟨t, ht⟩).1
            (hybridText T triples ((q.1 :: done) ++ (Q'.take t).map Prod.fst))).length =
          if (Q'.get ⟨t, ht⟩).1 ∈ triples.map (fun x => x.2.1) then 1 else 0 := by
      intro t ht
      have := hstep (t + 1) (by simpa using Nat.succ_lt_succ ht)
      simp only [List.take_succ_cons, List.map_cons, List.get] at this
      rw [hybrid_congr T triples ((q.1 :: done) ++ (Q'.take t).map Prod.fst)
        (done ++ q.1 :: (Q'.take t).map Prod.fst) (by
          intro x
          simp only [List.cons_append, List.mem_cons, List.mem_append]
          tauto)]
      exact this
    have hih := fun hd' => ih T triples (q.1 :: done) hndph
      (fun x hx => hne x (List.mem_cons_of_mem q hx)) hndq.2 hd'
      (fun x hx => hval x (List.mem_cons_of_mem q hx)) hstep'
    by_cases hqin : q.1 ∈ triples.map (fun x => x.2.1)
    · rw [if_pos hqin] at hq0
      obtain ⟨tr, htr, htreq⟩ := List.mem_map.mp (hval q (List.mem_cons_self _ _) hqin)
      have htr1 : tr.2.1 = q.1 := congrArg Prod.fst htreq
      have htr2 : tr.2.2 = q.2 := congrArg Prod.snd htreq
      obtain ⟨B, A, hBA, hBA'⟩ :=
        hybrid_split triples T done tr htr hndph (htr1 ▸ hdq)
      rw [htr1] at hBA hBA'
      rw [htr2] at hBA'
      have hocc : occursAt q.1 (B ++ q.1 ++ A) B.length = true := by
        unfold occursAt
        rw [List.append_assoc, List.drop_left, List.isPrefixOf_iff_prefix]
        exact List.prefix_append _ _
      have hlen1 : (occPositions q.1 (B ++ q.1 ++ A)).length = 1 := by
        rw [← hBA]; exact hq0
      obtain ⟨a, ha⟩ := List.length_eq_one.mp hlen1
      have haB : a = B.length := by
        have := (mem_occPositions q.1 (B ++ q.1 ++ A) B.length hq1ne).mpr hocc
        rw [ha, List.mem_singleton] at this
        exact this.symm
      have huniq : ∀ k, occursAt q.1 (B ++ q.1 ++ A) k = true → k = B.length := by
        intro k hk
        have := (mem_occPositions q.1 (B ++ q.1 ++ A) k hq1ne).mpr hk
        rw [ha, List.mem_singleton] at this
        rw [this, haB]
      rw [List.foldl_cons, hBA,
        pyReplace_single q.1 q.2 B A hq1ne huniq, ← hBA']
      refine hgrow _ (hih ?_)
      intro x hx hmem
      rcases List.mem_cons.mp hmem with he | hd'
      · exact hndq.1 (he ▸ List.mem_map_of_mem Prod.fst hx)
      · exact hdone x (List.mem_cons_of_mem q hx) hd'
    · rw [if_neg hqin] at hq0
      have hnocc : ∀ k, occursAt q.1 (hybridText T triples done) k = false := by
        intro k
        by_contra hk
        rw [Bool.not_eq_false] at hk
        have := (mem_occPositions q.1 (hybridText T triples done) k hq1ne).mpr hk
        rw [List.length_eq_zero.mp hq0] at this
        cases this
      have hnot : ∀ tr ∈ triples, tr.2.1 ≠ q.1 :=
        fun tr htr he => hqin (he ▸ List.mem_map_of_mem (fun x => x.2.1) htr)
      rw [List.foldl_cons,
        pyReplace_no_occ q.1 q.2 (hybridText T triples done) hq1ne hnocc,
        ← hybrid_not_ph T triples done q.1 hnot]
      refine hgrow _ ?_
      apply hih
      intro x hx
      intro hmem
      rcases List.mem_cons.mp hmem with he | hd'
      · exact hndq.1 (he ▸ List.mem_map_of_mem Prod.fst hx)
      · exact hdone x (List.mem_cons_of_mem q hx) hd'

/-! ## C1 — the Deidentify/Reidentify round trip -/

theorem zip_map_snd : ∀ (l : List Span) (l' : List Str), l.length = l'.length →
    (l.zip l').map (fun rp => rp.2) = l' := by
  intro l
  induction l with
  | nil =>
    intro l' h
    cases l' with
    | nil => rfl
    | cons y t' => simp at h
  | cons x t ih =>
    intro l' h
    cases l' with
    | nil => simp at h
    | cons y t' =>
      simp only [List.zip_cons_cons, List.map_cons, List.length_cons] at h ⊢
      rw [ih t' (by omega)]

theorem zip_map_pair_slice (T : Str) : ∀ (l : List Span) (l' : List Str),
    l.length = l'.length →
    (l.zip l').map (fun rp => (rp.1, strSlice T rp.1.start rp.1.stop)) =
      l.map (fun r => (r, strSlice T r.start r.stop)) := by
  intro l
  induction l with
  | nil => intro l' _; rfl
  | cons x t ih =>
    intro l' h
    cases l' with
    | nil => simp at h
    | cons y t' =>
      simp only [List.zip_cons_cons, List.map_cons, List.length_cons] at h ⊢
      rw [ih t' (by omega)]

/-- C1: for every text `T`, every resolved span set whose spans (sorted in
processing order) are non-overlapping, valid and in bounds (`descOKb`), and
every store state, if the call produces no placeholder collisions — fresh,
pairwise-distinct, non-empty placeholder keys, and at every step of the
re-identification each pending store key occurs in the current text exactly
at its own slot (once for generated placeholders, never for foreign keys) —
then re-identifying the de-identified text against the persisted store
returns exactly `T`. -/
theorem deidentify_reidentify_roundtrip (T : Str) (spans : List Span)
    (store : StoreMap)
    (hdesc : descOKb T.length (deidSorted spans) = true)
    (hph : (deidPlaceholders T spans store).Nodup)
    (hfresh : ∀ p ∈ deidPlaceholders T spans store, p ∉ store.map Prod.fst)
    (hstore : (store.map Prod.fst).Nodup)
    (hkeys : ∀ kv ∈ (deidentifyTransform T spans store).2, kv.1 ≠ [])
    (hnocoll : ∀ t (ht : t < (deidQueue T spans store).length),
        (occPositions ((deidQueue T spans store).get ⟨t, ht⟩).1
            (hybridText T (deidTriples T spans store)
              (((deidQueue T spans store).take t).map Prod.fst))).length =
          if ((deidQueue T spans store).get ⟨t, ht⟩).1 ∈ deidPlaceholders T spans store
          then 1 else 0) :
    (reidentify_text (deidentifyTransform T spans store).1.1
        (deidentifyTransform T spans store).2).1.1 = T := by
  have hchar := deid_char T (deidSorted spans) store [] T hdesc
  have hphs_eq : deidPhs T (deidSorted spans) (store, []) = deidPlaceholders T spans store :=
    rfl
  rw [hphs_eq] at hchar
  have hlenphs : (deidPlaceholders T spans store).length = (deidSorted spans).length :=
    deidPhs_length T _ _
  have hD : (deidentifyTransform T spans store).1.1 =
      buildText T ((deidSorted spans).zip (deidPlaceholders T spans store)) := by
    show ((deidSorted spans).foldl (deidentifyStep T) (store, ([] : Counters), T)).2.2 = _
    rw [hchar]
  have hM : (deidentifyTransform T spans store).2 =
      store ++ ((deidSorted spans).zip (deidPlaceholders T spans store)).map
        (fun rp => (rp.2, strSlice T rp.1.start rp.1.stop)) := by
    calc ((deidSorted spans).foldl (deidentifyStep T) (store, ([] : Counters), T)).1
        = (deidMC T (deidSorted spans) (store, [])).1 := by rw [hchar]
      _ = ((deidSorted spans).zip (deidPlaceholders T spans store)).foldl
            (fun m rp => dictInsert m rp.2 (strSlice T rp.1.start rp.1.stop)) store := by
          rw [deidMC_store, hphs_eq]
      _ = (((deidSorted spans).zip (deidPlaceholders T spans store)).map
            (fun rp => (rp.2, strSlice T rp.1.start rp.1.stop))).foldl
            (fun acc kv => dictInsert acc kv.1 kv.2) store := by
          rw [List.foldl_map]
      _ = store ++ ((deidSorted spans).zip (deidPlaceholders T spans store)).map
            (fun rp => (rp.2, strSlice T rp.1.start rp.1.stop)) := by
          apply foldl_dictInsert_fresh
          · rw [List.map_map]
            show (((deidSorted spans).zip (deidPlaceholders T spans store)).map
              (fun rp => rp.2)).Nodup
            rw [zip_map_snd _ _ hlenphs.symm]
            exact hph
          · intro p hp
            rw [List.map_map] at hp
            have hp' : p ∈ ((deidSorted spans).zip (deidPlaceholders T spans store)).map
                (fun rp => rp.2) := hp
            rw [zip_map_snd _ _ hlenphs.symm] at hp'
            exact hfresh p hp'
  have hNkeys : (((deidSorted spans).zip (deidPlaceholders T spans store)).map
      (fun rp => (rp.2, strSlice T rp.1.start rp.1.stop))).map Prod.fst =
      deidPlaceholders T spans store := by
    rw [List.map_map]
    exact zip_map_snd _ _ hlenphs.symm
  have htriplesph : (deidTriples T spans store).map (fun x => x.2.1) =
      deidPlaceholders T spans store := by
    unfold deidTriples
    rw [List.map_map]
    exact zip_map_snd _ _ hlenphs.symm
  have hQM : (deidQueue T spans store).Perm ((deidentifyTransform T spans store).2) :=
    sortDescBy_perm _ _
  have hQmem : ∀ q ∈ deidQueue T spans store, q ∈ store ++
      ((deidSorted spans).zip (deidPlaceholders T spans store)).map
        (fun rp => (rp.2, strSlice T rp.1.start rp.1.stop)) :=
    fun q hq => hM ▸ hQM.mem_iff.mp hq
  have hQkeysnd : ((deidQueue T spans store).map Prod.fst).Nodup := by
    have hperm := hQM.map Prod.fst
    rw [hM, List.map_append, hNkeys] at hperm
    refine hperm.nodup_iff.mpr ?_
    rw [List.nodup_append]
    exact ⟨hstore, hph, fun a ha hb => hfresh a hb ha⟩
  have hval : ∀ q ∈ deidQueue T spans store,
      q.1 ∈ (deidTriples T spans store).map (fun x => x.2.1) →
      (q.1, q.2) ∈ (deidTriples T spans store).map (fun x => (x.2.1, x.2.2)) := by
    intro q hq hqph
    rw [htriplesph] at hqph
    rcases List.mem_append.mp (hQmem q hq) with hqs | hqN
    · exact absurd (List.mem_map_of_mem Prod.fst hqs) (hfresh q.1 hqph)
    · have hNform : (deidTriples T spans store).map (fun x => (x.2.1, x.2.2)) =
          ((deidSorted spans).zip (deidPlaceholders T spans store)).map
            (fun rp => (rp.2, strSlice T rp.1.start rp.1.stop)) := by
        unfold deidTriples
        rw [List.map_map]
        rfl
      rw [hNform]
      exact (show (q.1, q.2) = q from rfl) ▸ hqN
  have hQne : ∀ q ∈ deidQueue T spans store, q.1 ≠ [] := by
    intro q hq
    exact hkeys q (hQM.mem_iff.mp hq)
  have hinit : hybridText T (deidTriples T spans store) [] =
      buildText T ((deidSorted spans).zip (deidPlaceholders T spans store)) := by
    unfold hybridText fillWith deidTriples
    rw [List.map_map]
    show buildText T
      (((deidSorted spans).zip (deidPlaceholders T spans store)).map id) = _
    rw [List.map_id]
  have hsub : ∀ p ∈ deidPlaceholders T spans store,
      p ∈ (deidQueue T spans store).map Prod.fst := by
    intro p hp
    have hpM : p ∈ ((deidentifyTransform T spans store).2).map Prod.fst := by
      rw [hM, List.map_append, hNkeys]
      exact List.mem_append_right _ hp
    exact (hQM.map Prod.fst).mem_iff.mpr hpM
  have hfinal : hybridText T (deidTriples T spans store)
      ([] ++ (deidQueue T spans store).map Prod.fst) = T := by
    unfold hybridText fillWith
    have hall : (deidTriples T spans store).map (fun tr =>
        (tr.1, if tr.2.1 ∈ [] ++ (deidQueue T spans store).map Prod.fst
               then tr.2.2 else tr.2.1)) =
        (deidTriples T spans store).map (fun tr => (tr.1, tr.2.2)) := by
      apply List.map_congr_left
      intro tr htr
      rw [if_pos ?_]
      rw [List.nil_append]
      exact hsub tr.2.1 (htriplesph ▸ List.mem_map_of_mem (fun x => x.2.1) htr)
    rw [hall]
    unfold deidTriples
    rw [List.map_map]
    show buildText T (((deidSorted spans).zip (deidPlaceholders T spans store)).map
      (fun rp => (rp.1, strSlice T rp.1.start rp.1.stop))) = T
    rw [zip_map_pair_slice T _ _ hlenphs.symm]
    exact buildText_restore _ T hdesc
  have hsteps : ∀ t (ht : t < (deidQueue T spans store).length),
      (occPositions ((deidQueue T spans store).get ⟨t, ht⟩).1
          (hybridText T (deidTriples T spans store)
            ([] ++ ((deidQueue T spans store).take t).map Prod.fst))).length =
        if ((deidQueue T spans store).get ⟨t, ht⟩).1 ∈
            (deidTriples T spans store).map (fun x => x.2.1) then 1 else 0 := by
    intro t ht
    rw [htriplesph]
    exact hnocoll t ht
  have hfold := fold_hybrid (deidQueue T spans store) T (deidTriples T spans store) []
    (htriplesph.symm ▸ hph) hQne hQkeysnd (fun q _ h => List.not_mem_nil _ h)
    hval hsteps
  show (deidQueue T spans store).foldl (fun acc kv => pyReplace acc kv.1 kv.2)
      ((deidentifyTransform T spans store).1.1) = T
  rw [hD, ← hinit, hfold]
  exact hfinal

theorem deidentify_reidentify_roundtrip_witness :
    (reidentify_text
        (deidentifyTransform "Call John now".data
          [⟨5, 9, personType, score10⟩] [(['A'], ['z'])]).1.1
        (deidentifyTransform "Call John now".data
          [⟨5, 9, personType, score10⟩] [(['A'], ['z'])]).2).1.1 =
      "Call John now".data :=
  deidentify_reidentify_roundtrip "Call John now".data
    [⟨5, 9, personType, score10⟩] [(['A'], ['z'])]
    (by decide) (by decide) (by decide) (by decide) (by decide) (by decide)

end PII

